import Mathlib

/-!
Verification of the netnote dual-source recording and live-transcription core.

The definitions below are a shallow embedding of the Rust sources under
src/src-tauri/src/.  Machine floats (f32/f64) are modelled by exact rationals
(ℚ); millisecond counters (i64) by ℤ; sample counts by ℕ.  Fallible
operations return Except/Option.  Each definition's doc comment names the
source function it embeds.  Text is processed on the character list of a
String (structural recursion, so that concrete instances evaluate in the
kernel); ASCII lowercasing and ASCII whitespace model Rust's
`str::to_lowercase` and `char::is_whitespace` on the ASCII token texts the
code compares.
-/

namespace NetNote

/-- ASCII lowercasing of a string's characters, modelling
`str::to_lowercase`. -/
def lowerChars (s : String) : List Char :=
  s.toList.map Char.toLower

/-- Substring test on character lists, modelling Rust `str::contains`. -/
def containsSeq (pat : List Char) : List Char → Bool
  | [] => pat.isEmpty
  | c :: rest => pat.isPrefixOf (c :: rest) || containsSeq pat rest

/-- Substring test `hay.contains(pat)` on strings. -/
def containsSub (hay pat : String) : Bool :=
  containsSeq pat.toList hay.toList

/-- Splits a character list into its maximal whitespace-free words,
modelling `str::split_whitespace`; `acc` holds the current word reversed. -/
def wordsAux (acc : List Char) : List Char → List (List Char)
  | [] => if acc.isEmpty then [] else [acc.reverse]
  | c :: cs =>
    if c.isWhitespace then
      if acc.isEmpty then wordsAux [] cs else acc.reverse :: wordsAux [] cs
    else wordsAux (c :: acc) cs

/-- The whitespace-separated words of the lowercased text, modelling
`text.to_lowercase().split_whitespace()` (live.rs:54-55, 69-70). -/
def lowerWords (s : String) : List (List Char) :=
  wordsAux [] (lowerChars s)

/-- Both-ends whitespace trim on a character list, modelling `str::trim`. -/
def trimChars (l : List Char) : List Char :=
  ((l.dropWhile Char.isWhitespace).reverse.dropWhile Char.isWhitespace).reverse

/-- Embeds `should_skip_segment` (src-tauri/src/transcription/live.rs:16-27;
textually identical copy in src-tauri/src/commands/transcription.rs:14-25):
lowercases the text and checks the seven Whisper skip-token substrings, or a
whitespace-only text. -/
def should_skip_segment (text : String) : Bool :=
  let text_lower := (lowerChars text).asString
  containsSub text_lower "[blank_audio]"
    || containsSub text_lower "[inaudible]"
    || containsSub text_lower "[ inaudible ]"
    || containsSub text_lower "[silence]"
    || containsSub text_lower "[music]"
    || containsSub text_lower "[applause]"
    || containsSub text_lower "[laughter]"
    || (trimChars text.toList).isEmpty

/-- The skip-token list as enumerated by the spec (lowercased, as the code
compares against the lowercased text). -/
def skipTokens : List String :=
  ["[blank_audio]", "[inaudible]", "[ inaudible ]", "[silence]", "[music]",
   "[applause]", "[laughter]"]

/-- Sum of squares of a sample slice, as in `has_voice_activity`
(live.rs:36). -/
def sum_sq (samples : List ℚ) : ℚ :=
  (samples.map (fun s => s * s)).sum

/-- Embeds `has_voice_activity` (live.rs:31-39).  The source computes
`rms = sqrt(sum_sq / len)` and returns `rms > threshold`; both sides being
nonnegative, this equals `sum_sq / len > threshold^2`, which keeps the
definition computable over ℚ.  Theorem `has_voice_activity_iff_rms` below
proves the definition equal to the source's square-root formulation. -/
def has_voice_activity (samples : List ℚ) (threshold : ℚ) : Bool :=
  if samples.isEmpty then false
  else decide (threshold ^ 2 < sum_sq samples / (samples.length : ℚ))

/-- The RMS energy the source computes in `has_voice_activity` (live.rs:37),
over the reals: `sqrt (sum_sq / len)`. -/
noncomputable def rms (samples : List ℚ) : ℝ :=
  Real.sqrt ((sum_sq samples : ℝ) / (samples.length : ℝ))

/-- The loop body of `is_echo_of_system` (live.rs:60-81): a history segment
counts when the intervals overlap by at least 1 second and enough of the
first five lowercase words match. -/
def echoWordTest (mic_words : List (List Char)) (mic_start mic_end : ℚ)
    (seg : ℚ × ℚ × String) : Bool :=
  let overlap_start := max mic_start seg.1
  let overlap_end := min mic_end seg.2.1
  if overlap_end - overlap_start < 1 then false
  else
    let sys_words := (lowerWords seg.2.2).take 5
    let nMatches := (mic_words.filter (fun w => sys_words.contains w)).length
    decide (3 ≤ nMatches) || (decide (2 ≤ nMatches) && decide (mic_words.length ≤ 3))

/-- Embeds `is_echo_of_system` (live.rs:43-83): a mic segment is an echo when
some system segment of the rolling history passes `echoWordTest` against the
mic segment's first five lowercase words. -/
def is_echo_of_system (mic_text : String) (mic_start mic_end : ℚ)
    (system_segments : List (ℚ × ℚ × String)) : Bool :=
  if system_segments.isEmpty then false
  else
    let mic_words := (lowerWords mic_text).take 5
    if mic_words.isEmpty then false
    else system_segments.any (echoWordTest mic_words mic_start mic_end)

/-- Number of the first-five lowercase mic words that occur among the
first-five lowercase system words: the quantity the claim's word test
counts. -/
def matchCount (mic_text sys_text : String) : ℕ :=
  (((lowerWords mic_text).take 5).filter
    (fun w => ((lowerWords sys_text).take 5).contains w)).length

/-- The claim's own wording of the echo test, for comparison with the code's
`is_echo_of_system`: some history segment overlaps the mic segment by at
least one second, and at least 3 of the first five words match, or at least
2 when the mic segment has at most 3 words in total. -/
def echoSpec (mic_text : String) (mic_start mic_end : ℚ)
    (system_segments : List (ℚ × ℚ × String)) : Prop :=
  ∃ seg ∈ system_segments,
    1 ≤ min mic_end seg.2.1 - max mic_start seg.1 ∧
      (3 ≤ matchCount mic_text seg.2.2 ∨
        (2 ≤ matchCount mic_text seg.2.2 ∧ (lowerWords mic_text).length ≤ 3))

/-- Consecutive chunks of `n + 1` elements (the last one may be shorter),
modelling Rust `slice::chunks` for a positive chunk size. -/
def chunksSucc (n : ℕ) : List α → List (List α)
  | [] => []
  | x :: xs => (x :: xs.take n) :: chunksSucc n (xs.drop n)
termination_by l => l.length
decreasing_by simp; omega

/-- Rust `samples.chunks(n)` for `n ≥ 1` (every call site of the sources
passes a positive chunk size). -/
def listChunks (n : ℕ) (l : List α) : List (List α) :=
  chunksSucc (n - 1) l

/-- The mic mono downmix of the live scheduler (live.rs:194-201): average
each `ch`-sized frame. -/
def monoMix (ch : ℕ) (samples : List ℚ) : List ℚ :=
  if 1 < ch then (listChunks ch samples).map (fun chunk => chunk.sum / (ch : ℚ))
  else samples

/-- Embeds the live scheduler's `resample` (live.rs:528-547): linear
interpolation to `to_rate`, with the f64 index arithmetic carried out
exactly over ℚ.  (As in the source, the sample at `idx0` is pushed only
under the bound check; `new_len` is the truncated `len * to/from`.) -/
def resampleLive (samples : List ℚ) (from_rate to_rate : ℕ) : List ℚ :=
  let new_len : ℕ := samples.length * to_rate / from_rate
  (List.range new_len).filterMap (fun i =>
    let src_idx : ℚ := (i : ℚ) * (from_rate : ℚ) / (to_rate : ℚ)
    let idx0 : ℕ := (⌊src_idx⌋).toNat
    let idx1 : ℕ := min (idx0 + 1) (samples.length - 1)
    let frac : ℚ := src_idx - (idx0 : ℚ)
    if idx0 < samples.length then
      some (((samples.get? idx0).getD 0) * (1 - frac) +
        ((samples.get? idx1).getD 0) * frac)
    else none)

/-- The live scheduler's per-tick mic preparation and VAD gate
(live.rs:189-216): a drained non-empty mic buffer with known positive
rate/channels is downmixed to mono; it is dispatched to inference (as a
16 kHz chunk) exactly when `has_voice_activity mono (1/100)`; otherwise the
chunk is dropped. -/
def micDispatch (mic_samples : List ℚ) (rate ch : ℕ) : Option (List ℚ) :=
  if mic_samples.isEmpty then none
  else if 0 < rate ∧ 0 < ch then
    let mono_mic := monoMix ch mic_samples
    if has_voice_activity mono_mic (1 / 100) then
      some (if rate ≠ 16000 then resampleLive mono_mic rate 16000 else mono_mic)
    else none
  else none

/-- A transcript segment produced by the STT engine (transcriber.rs:10-14);
times in seconds, already shifted by the source's time offset where the live
scheduler is concerned (live.rs:480-493). -/
structure TranscriptionSegment where
  start_time : ℚ
  end_time : ℚ
  text : String
deriving Repr, DecidableEq

/-- A transcription result (transcriber.rs:17-22). -/
structure TranscriptionResult where
  segments : List TranscriptionSegment
  full_text : String
  language : Option String
deriving Repr, DecidableEq

/-- The mutable live-transcription state (live.rs:86-96). -/
structure LiveTranscriptionState where
  is_running : Bool
  mic_time_offset : ℚ
  system_time_offset : ℚ
  segments : List TranscriptionSegment
  recent_system_segments : List (ℚ × ℚ × String)
deriving Repr, DecidableEq

/-- One row of the batch handed to `add_transcript_segments_batch`
(live.rs:278, db/mod.rs:62-86): `(note_id, start, end, text, speaker)`. -/
structure TranscriptRow where
  note_id : String
  start_time : ℚ
  end_time : ℚ
  text : String
  speaker : Option String
deriving Repr, DecidableEq

/-- Audio source tag (live.rs:119-124). -/
inductive LiveSource where
  | mic
  | system
deriving Repr, DecidableEq

/-- Event payload for transcription updates (live.rs:128-134). -/
structure TranscriptionUpdateEvent where
  note_id : String
  segments : List TranscriptionSegment
  is_final : Bool
  audio_source : LiveSource
deriving Repr, DecidableEq

/-- The system segments surviving the skip filter on a tick
(live.rs:284-291): empty when there was no system result or it had no
segments. -/
def sysValidOf (system_result : Option TranscriptionResult) :
    List TranscriptionSegment :=
  match system_result with
  | some transcription =>
    if transcription.segments.isEmpty then []
    else transcription.segments.filter (fun s => ¬ should_skip_segment s.text)
  | none => []

/-- The rolling system-segment history after the tick's update
(live.rs:293-303): surviving system segments are appended, then entries
with `end_time ≤ system_time_offset − 30` are evicted.  When the system
result is absent or empty the history is untouched. -/
def historyOf (st : LiveTranscriptionState)
    (system_result : Option TranscriptionResult) : List (ℚ × ℚ × String) :=
  match system_result with
  | some transcription =>
    if transcription.segments.isEmpty then st.recent_system_segments
    else
      let valid := transcription.segments.filter (fun s => ¬ should_skip_segment s.text)
      (st.recent_system_segments ++
        valid.map (fun s => (s.start_time, s.end_time, s.text))).filter
        (fun e => st.system_time_offset - 30 < e.2.1)
  | none => st.recent_system_segments

/-- The mic segments surviving the skip filter and the echo filter against
the tick's updated history (live.rs:313-325). -/
def micValidOf (st : LiveTranscriptionState)
    (mic_result system_result : Option TranscriptionResult) :
    List TranscriptionSegment :=
  match mic_result with
  | some transcription =>
    if transcription.segments.isEmpty then []
    else
      (transcription.segments.filter (fun s => ¬ should_skip_segment s.text)).filter
        (fun s => ¬ is_echo_of_system s.text s.start_time s.end_time
          (historyOf st system_result))
  | none => []

/-- The mic time offset after the tick (live.rs:313-317): the end time of
the last raw mic segment when the mic result is non-empty, otherwise
unchanged. -/
def micOffsetOf (st : LiveTranscriptionState)
    (mic_result : Option TranscriptionResult) : ℚ :=
  match mic_result with
  | some transcription =>
    if transcription.segments.isEmpty then st.mic_time_offset
    else
      match transcription.segments.getLast? with
      | some last => last.end_time
      | none => st.mic_time_offset
  | none => st.mic_time_offset

/-- The system time offset after the tick (live.rs:355-358): the end time of
the last surviving (skip-filtered) system segment when one exists, otherwise
unchanged. -/
def sysOffsetOf (st : LiveTranscriptionState)
    (system_result : Option TranscriptionResult) : ℚ :=
  match (sysValidOf system_result).getLast? with
  | some last => last.end_time
  | none => st.system_time_offset

/-- One tick of the live transcription scheduler, given the two inference
results (live.rs:277-395): system post-processing and history update, mic
echo suppression, offset advancement, the batch of DB rows (mic rows with
speaker "You" first, then system rows with "Others") and the emitted
events. -/
def processTick (note_id : String) (st : LiveTranscriptionState)
    (mic_result system_result : Option TranscriptionResult) :
    LiveTranscriptionState × List TranscriptRow × List TranscriptionUpdateEvent :=
  let current_system_segments := sysValidOf system_result
  let mic_valid := micValidOf st mic_result system_result
  let mic_rows := mic_valid.map (fun s =>
    TranscriptRow.mk note_id s.start_time s.end_time s.text (some "You"))
  let sys_rows := current_system_segments.map (fun s =>
    TranscriptRow.mk note_id s.start_time s.end_time s.text (some "Others"))
  let mic_events : List TranscriptionUpdateEvent :=
    if mic_valid.isEmpty then []
    else [TranscriptionUpdateEvent.mk note_id mic_valid false LiveSource.mic]
  let sys_events : List TranscriptionUpdateEvent :=
    if current_system_segments.isEmpty then []
    else [TranscriptionUpdateEvent.mk note_id current_system_segments false
      LiveSource.system]
  ({ st with
      mic_time_offset := micOffsetOf st mic_result,
      system_time_offset := sysOffsetOf st system_result,
      segments := st.segments ++ mic_valid ++ current_system_segments,
      recent_system_segments := historyOf st system_result },
    mic_rows ++ sys_rows,
    mic_events ++ sys_events)

/-- Embeds `stop_live_transcription` (live.rs:404-422): clears the running
flag and returns the accumulated segments with their texts joined by single
spaces; nothing else of the live state is touched. -/
def stop_live_transcription (st : LiveTranscriptionState) :
    LiveTranscriptionState × TranscriptionResult :=
  ({ st with is_running := false },
    { segments := st.segments,
      full_text := String.intercalate " " (st.segments.map (fun s => s.text)),
      language := some "en" })

/-- The state reset at the top of `start_live_transcription`
(live.rs:146-154): the running flag is set and every accumulated field is
cleared. -/
def startReset (_st : LiveTranscriptionState) : LiveTranscriptionState :=
  { is_running := true, mic_time_offset := 0, system_time_offset := 0,
    segments := [], recent_system_segments := [] }

/-- The rows `transcribe_audio` persists
(commands/transcription.rs:265-271): every result segment surviving the
skip filter, with the caller's speaker label. -/
def offline_saved_rows (note_id : String) (speaker : Option String)
    (result : TranscriptionResult) : List TranscriptRow :=
  (result.segments.filter (fun s => ¬ should_skip_segment s.text)).map
    (fun s => TranscriptRow.mk note_id s.start_time s.end_time s.text speaker)

/-- The persisted-transcript invariant the spec states for every row:
ordered times, and text that is non-empty, not whitespace-only, and free of
every skip token as a case-insensitive substring. -/
def transcriptRowOk (r : TranscriptRow) : Prop :=
  r.start_time ≤ r.end_time ∧ r.text ≠ "" ∧
    ¬ (trimChars r.text.toList).isEmpty = true ∧
    ∀ tok ∈ skipTokens, containsSub (lowerChars r.text).asString tok = false

end NetNote

namespace NetNote

/-! The segmented recording controller and its segment store
(commands/audio.rs, audio/recorder.rs, db/mod.rs).  The recording commands
are modelled as pure transitions over the recorder state and the database;
the wall-clock elapsed time read on pause is an input of the event. -/

/-- Recording phase (recorder.rs:17-21). -/
inductive RecordingPhase where
  | Idle
  | Recording
  | Paused
deriving Repr, DecidableEq

/-- The cross-thread recorder state (recorder.rs:34-58), restricted to the
fields the recording commands read or write; the sample buffer and level
gauge of the capture callback are modelled separately by `CaptureState`. -/
structure RecorderState where
  phase : RecordingPhase
  is_recording : Bool
  output_path : Option String
  current_segment_index : ℕ
  segment_start_offset_ms : ℤ
  current_segment_db_id : ℤ
  current_note_id : Option String
deriving Repr, DecidableEq

/-- Embeds `reset_for_new_session` (recorder.rs:100-110); the phase and the
output path are not touched. -/
def reset_for_new_session (st : RecorderState) : RecorderState :=
  { st with
      current_segment_index := 0
      segment_start_offset_ms := 0
      current_segment_db_id := 0
      current_note_id := none }

/-- Embeds `audio::start_recording` (recorder.rs:140-171): rejected while
already `Recording`; otherwise stores the output path, raises the recording
flag and enters `Recording`. -/
def start_recording (st : RecorderState) (output_path : String) :
    Except String RecorderState :=
  if st.phase = RecordingPhase.Recording then .error "AlreadyRecording"
  else .ok { st with
      output_path := some output_path
      is_recording := true
      phase := RecordingPhase.Recording }

/-- Embeds `audio::pause_recording` (recorder.rs:174-189): only from
`Recording`; returns the elapsed wall-clock duration of the segment, which
is an input here. -/
def pause_recording (st : RecorderState) (elapsed_ms : ℤ) :
    Except String (RecorderState × ℤ) :=
  if st.phase ≠ RecordingPhase.Recording then .error "NotRecording"
  else .ok ({ st with is_recording := false, phase := RecordingPhase.Paused },
    elapsed_ms)

/-- Embeds `audio::resume_recording` (recorder.rs:192-204): only from
`Paused`; bumps the segment index and starts recording. -/
def resume_recording (st : RecorderState) (output_path : String) :
    Except String RecorderState :=
  if st.phase ≠ RecordingPhase.Paused then .error "NotPaused"
  else start_recording
    { st with current_segment_index := st.current_segment_index + 1 } output_path

/-- Embeds `audio::stop_recording` (recorder.rs:207-217): unconditionally
clears the flags, enters `Idle`, resets the per-session counters and returns
the stored output path. -/
def stop_recording (st : RecorderState) : RecorderState × Option String :=
  (reset_for_new_session
    { st with is_recording := false, phase := RecordingPhase.Idle },
    st.output_path)

/-- One row of the `audio_segments` table (db/schema, db/mod.rs:253-271). -/
structure SegRow where
  id : ℤ
  note_id : String
  segment_index : ℤ
  mic_path : String
  system_path : Option String
  start_offset_ms : ℤ
  duration_ms : Option ℤ
deriving Repr, DecidableEq

/-- The database as the recording commands see it: the notes table (ids
only), the `audio_segments` rows in insertion order, and the next SQLite
rowid. -/
structure Db where
  notes : List String
  segments : List SegRow
  next_id : ℤ
deriving Repr, DecidableEq

/-- SQL `MAX(segment_index) ... WHERE note_id = ?` (db/mod.rs:316-323):
`none` on a note with no segments. -/
def maxIndexOf (note_id : String) : List SegRow → Option ℤ
  | [] => none
  | r :: rest =>
    let m := maxIndexOf note_id rest
    if r.note_id = note_id then
      match m with
      | some v => some (max r.segment_index v)
      | none => some r.segment_index
    else m

/-- Embeds `get_next_segment_index` (db/mod.rs:314-325): max + 1, or 0. -/
def get_next_segment_index (db : Db) (note_id : String) : ℤ :=
  match maxIndexOf note_id db.segments with
  | some m => m + 1
  | none => 0

/-- Embeds `get_total_segment_duration` (db/mod.rs:328-339):
`SUM(duration_ms)` over the note's rows; SQL SUM skips NULL durations and
COALESCE yields 0 on a note with none. -/
def get_total_segment_duration (db : Db) (note_id : String) : ℤ :=
  ((db.segments.filter (fun r => r.note_id = note_id)).map
    (fun r => r.duration_ms.getD 0)).sum

/-- Embeds `add_audio_segment` (db/mod.rs:253-271): inserts a row with NULL
duration and returns its rowid; fails when the referenced note does not
exist (`PRAGMA foreign_keys = ON`, db/mod.rs:30). -/
def add_audio_segment (db : Db) (note_id : String) (segment_index : ℤ)
    (mic_path : String) (system_path : Option String) (start_offset_ms : ℤ) :
    Except String (Db × ℤ) :=
  if db.notes.contains note_id then
    .ok ({ db with
      segments := db.segments ++
        [SegRow.mk db.next_id note_id segment_index mic_path system_path
          start_offset_ms none],
      next_id := db.next_id + 1 }, db.next_id)
  else .error "FOREIGN KEY constraint failed"

/-- Embeds `update_segment_duration` (db/mod.rs:274-281): sets `duration_ms`
of the rows whose id matches (at most one, ids being unique). -/
def update_segment_duration (db : Db) (segment_id : ℤ) (duration_ms : ℤ) : Db :=
  { db with segments := db.segments.map (fun r =>
      if r.id = segment_id then { r with duration_ms := some duration_ms } else r) }

/-- The per-process state the recording commands act on: the shared recorder
state and the database. -/
structure AppState where
  recording : RecorderState
  db : Db
deriving Repr, DecidableEq

/-- The per-segment mic file name (audio.rs:713, 483, 617). -/
def micSegPath (note_id : String) (idx : ℤ) : String :=
  note_id ++ "_mic_seg" ++ toString idx ++ ".wav"

/-- The per-segment system file name (audio.rs:717, 487, 621). -/
def sysSegPath (note_id : String) (idx : ℤ) : String :=
  note_id ++ "_system_seg" ++ toString idx ++ ".wav"

/-- Embeds `start_dual_recording_with_segments` (audio.rs:680-771): resets
the session counters, fetches the note's next index, inserts the segment
row with `start_offset_ms = 0` (the source's literal "First segment starts
at 0"), stores the row id, and starts the mic capture.  The state mutations
made before a failing step survive, as they do on the shared Tauri state. -/
def start_dual_recording_with_segments (st : AppState) (note_id : String) :
    AppState × Except String Unit :=
  let r1 := { reset_for_new_session st.recording with current_note_id := some note_id }
  let segment_index := get_next_segment_index st.db note_id
  match add_audio_segment st.db note_id segment_index
      (micSegPath note_id segment_index) (some (sysSegPath note_id segment_index)) 0 with
  | .error e => ({ st with recording := r1 }, .error e)
  | .ok (db1, segment_id) =>
    let r2 := { r1 with current_segment_db_id := segment_id }
    match start_recording r2 (micSegPath note_id segment_index) with
    | .error e => (AppState.mk r2 db1, .error e)
    | .ok r3 => (AppState.mk r3 db1, .ok ())

/-- Embeds `pause_dual_recording` (audio.rs:416-438): pauses the mic
capture, then writes the elapsed duration into the active segment row when
its stored id is positive. -/
def pause_dual_recording (st : AppState) (elapsed_ms : ℤ) :
    AppState × Except String ℤ :=
  match pause_recording st.recording elapsed_ms with
  | .error e => (st, .error e)
  | .ok (r1, duration_ms) =>
    let segment_id := r1.current_segment_db_id
    let db1 := if 0 < segment_id then update_segment_duration st.db segment_id duration_ms
      else st.db
    (AppState.mk r1 db1, .ok duration_ms)

/-- Embeds `resume_dual_recording` (audio.rs:443-541): only from `Paused`;
fetches the next index and the sum of stored durations as the new offset,
inserts the segment row, stores its id, and resumes the mic capture. -/
def resume_dual_recording (st : AppState) (note_id : String) :
    AppState × Except String Unit :=
  if st.recording.phase ≠ RecordingPhase.Paused then
    (st, .error "Recording is not paused")
  else
    let segment_index := get_next_segment_index st.db note_id
    let start_offset_ms := get_total_segment_duration st.db note_id
    let r1 := { st.recording with
      current_segment_index := segment_index.toNat,
      segment_start_offset_ms := start_offset_ms }
    match add_audio_segment st.db note_id segment_index
        (micSegPath note_id segment_index) (some (sysSegPath note_id segment_index))
        start_offset_ms with
    | .error e => ({ st with recording := r1 }, .error e)
    | .ok (db1, segment_id) =>
      let r2 := { r1 with current_segment_db_id := segment_id }
      match resume_recording r2 (micSegPath note_id segment_index) with
      | .error e => (AppState.mk r2 db1, .error e)
      | .ok r3 => (AppState.mk r3 db1, .ok ())

/-- Embeds `stop_dual_recording` (audio.rs:285-341): stops the mic capture
(which resets every per-session counter), stops the system capture and
mixes the playback file; no segment row is written — in particular
`update_segment_duration` is never called on this path. -/
def stop_dual_recording (st : AppState) (_note_id : String) :
    AppState × Except String Unit :=
  let p := stop_recording st.recording
  match p.2 with
  | none => ({ st with recording := p.1 }, .error "No mic recording path found")
  | some _ => ({ st with recording := p.1 }, .ok ())

/-- Embeds `continue_note_recording` (audio.rs:546-675): requires the note
to exist, fetches the next index and the sum of stored durations as the new
offset, inserts the segment row, stores its id, and starts the mic
capture. -/
def continue_note_recording (st : AppState) (note_id : String) :
    AppState × Except String Unit :=
  if ¬ st.db.notes.contains note_id then (st, .error "Note not found")
  else
    let r1 := { st.recording with current_note_id := some note_id }
    let segment_index := get_next_segment_index st.db note_id
    let start_offset_ms := get_total_segment_duration st.db note_id
    let r2 := { r1 with
      current_segment_index := segment_index.toNat,
      segment_start_offset_ms := start_offset_ms }
    match add_audio_segment st.db note_id segment_index
        (micSegPath note_id segment_index) (some (sysSegPath note_id segment_index))
        start_offset_ms with
    | .error e => ({ st with recording := r2 }, .error e)
    | .ok (db1, segment_id) =>
      let r3 := { r2 with current_segment_db_id := segment_id }
      match start_recording r3 (micSegPath note_id segment_index) with
      | .error e => (AppState.mk r3 db1, .error e)
      | .ok r4 => (AppState.mk r4 db1, .ok ())

/-- A recording command with its external inputs (the elapsed wall time the
pause handler reads). -/
inductive RecCmd where
  | start (note_id : String)
  | pause (elapsed_ms : ℤ)
  | resume (note_id : String)
  | stop (note_id : String)
  | continueNote (note_id : String)
deriving Repr, DecidableEq

/-- One command step (the command's state effect; its return value is
dropped). -/
def stepCmd (st : AppState) : RecCmd → AppState
  | .start n => (start_dual_recording_with_segments st n).1
  | .pause d => (pause_dual_recording st d).1
  | .resume n => (resume_dual_recording st n).1
  | .stop n => (stop_dual_recording st n).1
  | .continueNote n => (continue_note_recording st n).1

/-- Runs a command sequence. -/
def runCmds (st : AppState) : List RecCmd → AppState
  | [] => st
  | c :: cs => runCmds (stepCmd st c) cs

/-- The process start state over a given notes table: recorder idle, no
segments, rowids from 1. -/
def initState (notes : List String) : AppState :=
  AppState.mk
    (RecorderState.mk RecordingPhase.Idle false none 0 0 0 none)
    (Db.mk notes [] 1)

/-- Sum of the stored (non-NULL, read as 0) durations of the note's rows
with a smaller segment index: what the spec's offset invariant compares
`start_offset_ms` against. -/
def priorSum (segs : List SegRow) (note_id : String) (idx : ℤ) : ℤ :=
  ((segs.filter (fun q => decide (q.note_id = note_id ∧ q.segment_index < idx))).map
    (fun q => q.duration_ms.getD 0)).sum

/-- The spec's segment-offset invariant over a table: every row's offset is
the sum of the durations of its note's earlier-indexed rows. -/
def offsetConsistent (segs : List SegRow) : Prop :=
  ∀ r ∈ segs, r.start_offset_ms = priorSum segs r.note_id r.segment_index

/-- Whether each `start_dual_recording_with_segments` of the trace runs on a
note that has no segments yet (the restriction under which the offset
invariant holds). -/
def freshStartsB (st : AppState) : List RecCmd → Bool
  | [] => true
  | c :: cs =>
    (match c with
      | RecCmd.start n => (st.db.segments.filter (fun r => r.note_id = n)).isEmpty
      | _ => true)
    && freshStartsB (stepCmd st c) cs

/-! The mixer (audio/mixer.rs) at the decoded-sample level: lists of
normalized f32 samples, modelled over ℚ. -/

/-- Rust float→int `as` truncation toward zero. -/
def truncToInt (x : ℚ) : ℤ :=
  if 0 ≤ x then ⌊x⌋ else ⌈x⌉

/-- Rust `f32::clamp`. -/
def clampQ (x lo hi : ℚ) : ℚ :=
  max lo (min x hi)

/-- Embeds the mixer's `resample` (mixer.rs:10-36): identity on equal rates,
else linear interpolation over `ceil(len·to/from)` output samples, clamping
the upper interpolation index to the last sample. -/
def mixResample (samples : List ℚ) (from_rate to_rate : ℕ) : List ℚ :=
  if from_rate = to_rate then samples
  else
    let new_len : ℕ := (⌈((samples.length * to_rate : ℕ) : ℚ) / (from_rate : ℚ)⌉).toNat
    (List.range new_len).map (fun i =>
      let src_idx : ℚ := (i : ℚ) * (from_rate : ℚ) / (to_rate : ℚ)
      let idx_floor : ℕ := (⌊src_idx⌋).toNat
      let idx_ceil : ℕ := min (idx_floor + 1) (samples.length - 1)
      let frac : ℚ := src_idx - (idx_floor : ℚ)
      if idx_floor < samples.length then
        let s1 := (samples.get? idx_floor).getD 0
        let s2 := (samples.get? idx_ceil).getD s1
        s1 + (s2 - s1) * frac
      else 0)

/-- Embeds `normalize_channels_f32` (mixer.rs:252-280): identity on equal
counts, duplication for mono→stereo, pair averaging for stereo→mono (a
trailing odd sample passes through), identity otherwise. -/
def normalize_channels_f32 (samples : List ℚ) (from_channels to_channels : ℕ) :
    List ℚ :=
  if from_channels = to_channels then samples
  else
    match from_channels, to_channels with
    | 1, 2 => samples.flatMap (fun s => [s, s])
    | 2, 1 => (listChunks 2 samples).map (fun chunk =>
        match chunk with
        | [a, b] => (a + b) / 2
        | [a] => a
        | _ => 0)
    | _, _ => samples

/-- Embeds the mixing core of `mix_int_samples` (mixer.rs:85-130) after WAV
decoding: channel-normalize both streams to the first's channel count,
resample the second to the first's rate, then average index-wise over the
longer length with the shorter stream read as 0 past its end, scaling by
32767 and clamping into i16. -/
def mix_int_samples (samples_a samples_b : List ℚ) (rate_a rate_b ch_a ch_b : ℕ) :
    List ℤ :=
  let sa := normalize_channels_f32 samples_a ch_a ch_a
  let sb := mixResample (normalize_channels_f32 samples_b ch_b ch_a) rate_b rate_a
  let max_len := max sa.length sb.length
  (List.range max_len).map (fun i =>
    let a := (sa.get? i).getD 0
    let b := (sb.get? i).getD 0
    truncToInt (clampQ ((a + b) / 2 * 32767) (-32768) 32767))

/-- The output WAV header `mix_wav_files` writes (mixer.rs:58-63): the first
input's channel count and sample rate, 16-bit integer samples. -/
structure WavSpecM where
  channels : ℕ
  sample_rate : ℕ
  bits_per_sample : ℕ
deriving Repr, DecidableEq

/-- Embeds the `output_spec` of `mix_wav_files` (mixer.rs:58-63). -/
def mix_output_spec (spec_a : WavSpecM) : WavSpecM :=
  WavSpecM.mk spec_a.channels spec_a.sample_rate 16

/-! The microphone capture callback (audio/recorder.rs:323-351). -/

/-- The capture-side fields of the recorder state the callback touches. -/
structure CaptureState where
  is_recording : Bool
  audio_level : Option ℚ
  audio_buffer : List ℚ
deriving Repr, DecidableEq

/-- The value `process_audio` stores in the level gauge
(recorder.rs:332-335): the RMS `sqrt(sum_sq/len)` of the callback slice.
We model the gauge by the squared RMS (`sqrt` is monotone and no claim
compares gauge readings), and by `none` the IEEE NaN that `sqrt(0.0/0.0)`
yields on an empty slice. -/
def rmsGaugeValue (data : List ℚ) : Option ℚ :=
  if data.isEmpty then none
  else some (sum_sq data / (data.length : ℚ))

/-- Rust `f32 as i16` (recorder.rs:346): truncation toward zero, saturating
at the i16 bounds. -/
def asI16 (x : ℚ) : ℤ :=
  max (-32768) (min (truncToInt x) 32767)

/-- Embeds `process_audio` (recorder.rs:323-351): a no-op when not
recording; otherwise stores the slice's RMS in the level gauge, appends the
slice to the live buffer, and writes the scaled samples to the WAV sink
(modelled as the written sample list). -/
def process_audio (data : List ℚ) (st : CaptureState) (wav : List ℤ) :
    CaptureState × List ℤ :=
  if ¬ st.is_recording then (st, wav)
  else
    ({ st with
        audio_level := rmsGaugeValue data
        audio_buffer := st.audio_buffer ++ data },
      wav ++ data.map (fun sample => asI16 (sample * 32767)))

/-! Concrete fixtures used by counterexamples and witnesses. -/

/-- A freshly started live state (what `startReset` produces). -/
def initLive : LiveTranscriptionState :=
  LiveTranscriptionState.mk true 0 0 [] []

/-- A mic inference result with one ordinary segment. -/
def micHello : TranscriptionResult :=
  TranscriptionResult.mk [TranscriptionSegment.mk 0 1 "hello"] "hello" none

/-- A system inference result whose only segment is the blank-audio skip
token, ending at t = 2. -/
def sysBlank : TranscriptionResult :=
  TranscriptionResult.mk [TranscriptionSegment.mk 0 2 "[BLANK_AUDIO]"] "" none

/-! ### C10 — stop_live_transcription is read-only except for the flag -/

/-- Claim C10: `stop_live_transcription` only clears the running flag and
returns the accumulated segments joined by single spaces; the segments, both
time offsets and the rolling history are untouched, a second stop returns
the same result, and the accumulated state is cleared only by the
`start_live_transcription` reset. -/
theorem C10_stop_live_frame (st : LiveTranscriptionState) :
    (stop_live_transcription st).1.segments = st.segments ∧
    (stop_live_transcription st).1.mic_time_offset = st.mic_time_offset ∧
    (stop_live_transcription st).1.system_time_offset = st.system_time_offset ∧
    (stop_live_transcription st).1.recent_system_segments = st.recent_system_segments ∧
    (stop_live_transcription st).1.is_running = false ∧
    (stop_live_transcription st).2.segments = st.segments ∧
    (stop_live_transcription st).2.full_text =
      String.intercalate " " (st.segments.map (fun s => s.text)) ∧
    stop_live_transcription (stop_live_transcription st).1 =
      ((stop_live_transcription st).1, (stop_live_transcription st).2) ∧
    startReset st = LiveTranscriptionState.mk true 0 0 [] [] :=
  ⟨rfl, rfl, rfl, rfl, rfl, rfl, rfl, rfl, rfl⟩

/-! ### C3 — speaker labels of the live batch commit -/

/-- Counterexample to claim C3: on a tick whose mic result is one plain
segment, the committed row carries speaker "You", not "self". -/
theorem C3_cex_speaker_is_You :
    ((processTick "n1" initLive (some micHello) none).2.1.map
      (fun r => r.speaker)) = [some "You"] ∧
    (some "You" : Option String) ≠ some "self" := by
  constructor
  · rfl
  · decide

/-- Claim C3 (amended): every row the live scheduler commits carries speaker
"You" when it came from the microphone result and "Others" when it came from
the system result — not the "self"/"others" domain the spec's data model
states. -/
theorem C3_live_rows_speakers (note : String) (st : LiveTranscriptionState)
    (mic sys : Option TranscriptionResult) :
    (processTick note st mic sys).2.1 =
      (micValidOf st mic sys).map (fun s =>
        TranscriptRow.mk note s.start_time s.end_time s.text (some "You")) ++
      (sysValidOf sys).map (fun s =>
        TranscriptRow.mk note s.start_time s.end_time s.text (some "Others")) ∧
    ∀ r ∈ (processTick note st mic sys).2.1,
      r.speaker = some "You" ∨ r.speaker = some "Others" := by
  have he : (processTick note st mic sys).2.1 =
      (micValidOf st mic sys).map (fun s =>
        TranscriptRow.mk note s.start_time s.end_time s.text (some "You")) ++
      (sysValidOf sys).map (fun s =>
        TranscriptRow.mk note s.start_time s.end_time s.text (some "Others")) := rfl
  refine ⟨he, ?_⟩
  intro r hr
  rw [he] at hr
  rcases List.mem_append.mp hr with h | h
  · rcases List.mem_map.mp h with ⟨s, _, rfl⟩
    exact Or.inl rfl
  · rcases List.mem_map.mp h with ⟨s, _, rfl⟩
    exact Or.inr rfl

/-! ### C4 — time-offset advancement -/

/-- Counterexample to claim C4: a tick whose system result has one raw
segment ending at t = 2, which the skip filter removes, leaves the system
offset at its previous value instead of advancing it to 2. -/
theorem C4_cex_system_offset_stalls :
    (processTick "n1" initLive none (some sysBlank)).1.system_time_offset =
      initLive.system_time_offset ∧
    sysBlank.segments.getLast? = some (TranscriptionSegment.mk 0 2 "[BLANK_AUDIO]") ∧
    (processTick "n1" initLive none (some sysBlank)).1.system_time_offset ≠ 2 := by
  refine ⟨rfl, rfl, ?_⟩
  have h : (processTick "n1" initLive none (some sysBlank)).1.system_time_offset
      = (0 : ℚ) := rfl
  rw [h]
  norm_num

/-- Claim C4 (amended): on a tick, the mic offset is set to the end time of
the last raw mic segment whenever the mic result is non-empty — even when
every mic segment is filtered — while the system offset is set to the end
time of the last skip-filtered system segment and is left unchanged on a
tick whose system segments are all filtered out. -/
theorem C4_offset_advancement (note : String) (st : LiveTranscriptionState)
    (mic sys : Option TranscriptionResult) :
    ((processTick note st mic sys).1.mic_time_offset = micOffsetOf st mic) ∧
    (∀ t, mic = some t → ∀ last, t.segments.getLast? = some last →
      (processTick note st mic sys).1.mic_time_offset = last.end_time) ∧
    ((processTick note st mic sys).1.system_time_offset = sysOffsetOf st sys) ∧
    ((sysValidOf sys) = [] →
      (processTick note st mic sys).1.system_time_offset = st.system_time_offset) ∧
    (∀ last, (sysValidOf sys).getLast? = some last →
      (processTick note st mic sys).1.system_time_offset = last.end_time) := by
  refine ⟨rfl, ?_, rfl, ?_, ?_⟩
  · rintro t rfl last hlast
    have hne : t.segments ≠ [] := by
      intro h
      rw [h] at hlast
      exact Option.noConfusion hlast
    have hie : t.segments.isEmpty = false := by
      cases hs : t.segments with
      | nil => exact absurd hs hne
      | cons a l => rfl
    show micOffsetOf st (some t) = last.end_time
    simp [micOffsetOf, hie, hlast]
  · intro hnil
    show sysOffsetOf st sys = st.system_time_offset
    unfold sysOffsetOf
    rw [hnil]
    rfl
  · intro last hlast
    show sysOffsetOf st sys = last.end_time
    unfold sysOffsetOf
    rw [hlast]

/-! ### C9 — the zero-sample capture callback -/

/-- Counterexample to claim C9: a zero-sample callback does not retain the
previous level-gauge value; it overwrites it (with the NaN of `0.0/0.0`,
modelled as `none`). -/
theorem C9_cex_gauge_overwritten :
    (process_audio [] (CaptureState.mk true (some (1/4)) []) []).1.audio_level
      ≠ (CaptureState.mk true (some (1/4)) []).audio_level := by
  intro h
  exact Option.noConfusion h

/-- Claim C9 (amended): a zero-sample mic callback while recording pushes
nothing to the live buffer and writes nothing to the WAV sink, but it does
store a new level-gauge value — the RMS of an empty slice, i.e. NaN — rather
than retaining the previous one. -/
theorem C9_empty_callback (st : CaptureState) (wav : List ℤ)
    (h : st.is_recording = true) :
    process_audio [] st wav = ({ st with audio_level := none }, wav) := by
  simp [process_audio, h, rmsGaugeValue]

/-- Witness for C9: the amended statement evaluated at a concrete state. -/
theorem C9_empty_callback_witness :
    process_audio [] (CaptureState.mk true (some 1) [1]) [2] =
      ({ CaptureState.mk true (some 1) [1] with audio_level := none }, [2]) :=
  C9_empty_callback (CaptureState.mk true (some 1) [1]) [2] rfl

/-! ### C1 — stop_dual_recording never writes the active segment's duration -/

/-- Claim C1 evaluated at its failing input: starting a session on a fresh
note and stopping it leaves the note's only segment row with a NULL
duration — `stop_dual_recording` succeeds, resets the phase to Idle, and
never calls `update_segment_duration`. -/
theorem C1_stop_never_writes_duration :
    (runCmds (initState ["n1"]) [RecCmd.start "n1", RecCmd.stop "n1"]).db.segments.map
      (fun r => r.duration_ms) = [none] ∧
    (stop_dual_recording (runCmds (initState ["n1"]) [RecCmd.start "n1"]) "n1").2 =
      Except.ok () ∧
    (runCmds (initState ["n1"]) [RecCmd.start "n1", RecCmd.stop "n1"]).recording.phase =
      RecordingPhase.Idle :=
  ⟨rfl, rfl, rfl⟩

/-! ### C2 — the segment offset invariant -/

instance instDecOffsetConsistent (segs : List SegRow) :
    Decidable (offsetConsistent segs) :=
  show Decidable (∀ r ∈ segs,
      r.start_offset_ms = priorSum segs r.note_id r.segment_index) from
    inferInstance

/-! ### C5 — the echo test -/

/-- Unfolds the echo loop body into the claim's conditions: overlap of at
least one second, and the word-match thresholds. -/
theorem echoWordTest_eq_true_iff (mw : List (List Char)) (ms me : ℚ)
    (seg : ℚ × ℚ × String) :
    echoWordTest mw ms me seg = true ↔
      1 ≤ min me seg.2.1 - max ms seg.1 ∧
        (3 ≤ (mw.filter (fun w => ((lowerWords seg.2.2).take 5).contains w)).length ∨
          (2 ≤ (mw.filter (fun w => ((lowerWords seg.2.2).take 5).contains w)).length ∧
            mw.length ≤ 3)) := by
  simp only [echoWordTest]
  by_cases hov : min me seg.2.1 - max ms seg.1 < 1
  · simp only [if_pos hov, Bool.false_eq_true, false_iff]
    rintro ⟨h1, -⟩
    exact absurd hov (not_lt.mpr h1)
  · have h1 : 1 ≤ min me seg.2.1 - max ms seg.1 := not_lt.mp hov
    simp only [if_neg hov, Bool.or_eq_true, Bool.and_eq_true, decide_eq_true_eq]
    constructor
    · rintro (h | ⟨h2, h3⟩)
      · exact ⟨h1, Or.inl h⟩
      · exact ⟨h1, Or.inr ⟨h2, h3⟩⟩
    · rintro ⟨-, (h | ⟨h2, h3⟩)⟩
      · exact Or.inl h
      · exact Or.inr ⟨h2, h3⟩

/-- The first five words have at most 3 elements exactly when the whole word
list does. -/
theorem take_five_length_le_three (l : List α) :
    (l.take 5).length ≤ 3 ↔ l.length ≤ 3 := by
  simp only [List.length_take]
  omega

/-- The echo test equals the spec's existential overlap-and-word-match
condition. -/
theorem is_echo_iff_echoSpec (mic_text : String) (mic_start mic_end : ℚ)
    (sys : List (ℚ × ℚ × String)) :
    is_echo_of_system mic_text mic_start mic_end sys = true ↔
      echoSpec mic_text mic_start mic_end sys := by
  by_cases hsys : sys = []
  · subst hsys
    simp [is_echo_of_system, echoSpec]
  · have hsysB : sys.isEmpty = false := by
      cases sys with
      | nil => exact absurd rfl hsys
      | cons a l => rfl
    by_cases hmw : (lowerWords mic_text).take 5 = []
    · have hmc : ∀ s, matchCount mic_text s = 0 := by
        intro s
        unfold matchCount
        rw [hmw]
        rfl
      simp [is_echo_of_system, echoSpec, hsysB, hmw, hmc]
    · have hmwB : ((lowerWords mic_text).take 5).isEmpty = false := by
        cases hq : (lowerWords mic_text).take 5 with
        | nil => exact absurd hq hmw
        | cons a l => rfl
      simp only [is_echo_of_system, hsysB, Bool.false_eq_true, if_false, hmwB,
        List.any_eq_true, echoSpec]
      constructor
      · rintro ⟨seg, hmem, ht⟩
        rw [echoWordTest_eq_true_iff] at ht
        obtain ⟨hov, hca⟩ := ht
        refine ⟨seg, hmem, hov, ?_⟩
        rcases hca with h | ⟨h2, h3⟩
        · exact Or.inl h
        · exact Or.inr ⟨h2, (take_five_length_le_three _).mp h3⟩
      · rintro ⟨seg, hmem, hov, hca⟩
        refine ⟨seg, hmem, ?_⟩
        rw [echoWordTest_eq_true_iff]
        refine ⟨hov, ?_⟩
        rcases hca with h | ⟨h2, h3⟩
        · exact Or.inl h
        · exact Or.inr ⟨h2, (take_five_length_le_three _).mpr h3⟩

/-- Claim C5: `is_echo_of_system` discards a mic segment exactly under the
spec's overlap-and-word-match condition, and at the boundary 2 matching
words out of a 4-word mic segment is not an echo while 2 out of a 3-word mic
segment is. -/
theorem C5_echo_characterization (mic_text : String) (mic_start mic_end : ℚ)
    (sys : List (ℚ × ℚ × String)) :
    (is_echo_of_system mic_text mic_start mic_end sys = true ↔
      echoSpec mic_text mic_start mic_end sys) ∧
    is_echo_of_system "alpha beta gamma delta" 0 2 [(0, 2, "alpha beta x y z")] = false ∧
    is_echo_of_system "alpha beta gamma" 0 2 [(0, 2, "alpha beta x y z")] = true := by
  refine ⟨is_echo_iff_echoSpec mic_text mic_start mic_end sys, ?_, ?_⟩
  · cases hb : is_echo_of_system "alpha beta gamma delta" 0 2
        [(0, 2, "alpha beta x y z")] with
    | false => rfl
    | true =>
      exfalso
      obtain ⟨seg, hmem, -, hca⟩ := (is_echo_iff_echoSpec _ _ _ _).mp hb
      simp only [List.mem_singleton] at hmem
      subst hmem
      exact absurd hca (by decide)
  · apply (is_echo_iff_echoSpec _ _ _ _).mpr
    refine ⟨(0, 2, "alpha beta x y z"), by simp, ?_, ?_⟩
    · norm_num
    · exact Or.inr ⟨by decide, by decide⟩

/-! ### C6 — the VAD gate -/

/-- The ℚ-level gate equals the source's square-root comparison: for a
nonnegative threshold, `has_voice_activity` holds exactly when the chunk is
non-empty and its RMS exceeds the threshold. -/
theorem has_voice_activity_iff_rms (samples : List ℚ) (threshold : ℚ)
    (ht : 0 ≤ threshold) :
    has_voice_activity samples threshold = true ↔
      samples ≠ [] ∧ (threshold : ℝ) < rms samples := by
  by_cases h : samples.isEmpty = true
  · have hnil : samples = [] := by
      cases samples with
      | nil => rfl
      | cons a l => exact absurd h (by simp)
    subst hnil
    simp [has_voice_activity]
  · have hne : samples ≠ [] := by
      intro hnil
      subst hnil
      exact h rfl
    unfold has_voice_activity rms
    rw [if_neg h]
    simp only [decide_eq_true_eq]
    have hcast : ((threshold : ℝ) < Real.sqrt ((sum_sq samples : ℝ) / (samples.length : ℝ)))
        ↔ threshold ^ 2 < sum_sq samples / (samples.length : ℚ) := by
      rw [Real.lt_sqrt (by exact_mod_cast ht)]
      constructor
      · intro hlt
        exact_mod_cast hlt
      · intro hlt
        exact_mod_cast hlt
    constructor
    · intro hlt
      exact ⟨hne, hcast.mpr hlt⟩
    · rintro ⟨-, hlt⟩
      exact hcast.mp hlt

/-- A chunking of a non-empty list is non-empty. -/
theorem chunksSucc_ne_nil (n : ℕ) (x : α) (xs : List α) :
    chunksSucc n (x :: xs) ≠ [] := by
  simp [chunksSucc]

/-- The mono downmix is empty exactly on an empty input (for a positive
channel count). -/
theorem monoMix_eq_nil_iff (ch : ℕ) (s : List ℚ) :
    monoMix ch s = [] ↔ s = [] := by
  unfold monoMix
  by_cases h : 1 < ch
  · rw [if_pos h]
    constructor
    · intro hm
      cases s with
      | nil => rfl
      | cons a l =>
        exfalso
        simp only [listChunks, List.map_eq_nil_iff] at hm
        exact chunksSucc_ne_nil (ch - 1) a l hm
    · intro hs
      subst hs
      simp [listChunks, chunksSucc]
  · rw [if_neg h]

/-- Counterexample to claim C6: the code gates on the RMS of the mono signal
at the device rate, before resampling.  A 32 kHz chunk `[0, 1]` is
dispatched (its device-rate RMS is √(1/2) > 0.01), although the resulting
mono 16 kHz signal is `[0]`, whose RMS is 0 ≤ 0.01 — by the claim it should
have been discarded. -/
theorem C6_cex_gate_precedes_resample :
    (micDispatch [0, 1] 32000 1).isSome = true ∧
    resampleLive (monoMix 1 [0, 1]) 32000 16000 = [0] ∧
    rms (resampleLive (monoMix 1 [0, 1]) 32000 16000) = 0 ∧
    ¬ ((1 : ℝ) / 100 < rms (resampleLive (monoMix 1 [0, 1]) 32000 16000)) := by
  have hmono : monoMix 1 [(0 : ℚ), 1] = [0, 1] := rfl
  have hres : resampleLive (monoMix 1 [0, 1]) 32000 16000 = [0] := by
    rw [hmono]
    simp only [resampleLive]
    norm_num
    norm_num [List.range_succ, List.filterMap_cons, Int.floor_zero]
  have hrms : rms (resampleLive (monoMix 1 [0, 1]) 32000 16000) = 0 := by
    rw [hres]
    simp [rms, sum_sq]
  refine ⟨?_, hres, hrms, ?_⟩
  · have hgate : has_voice_activity [(0 : ℚ), 1] (1 / 100) = true := by
      simp only [has_voice_activity, sum_sq, List.map_cons, List.map_nil, List.sum_cons,
        List.sum_nil, List.isEmpty_cons, Bool.false_eq_true, if_false, List.length_cons,
        List.length_nil, decide_eq_true_eq]
      norm_num
    simp only [micDispatch]
    rw [if_neg (show ¬([(0 : ℚ), 1].isEmpty = true) by decide)]
    rw [if_pos (show 0 < 32000 ∧ 0 < 1 by constructor <;> norm_num)]
    rw [hmono, if_pos hgate]
    rfl
  · rw [hrms]
    norm_num

/-- Claim C6 (amended): the mic chunk is dispatched exactly when it is
non-empty and the RMS of the mono downmix at the device rate strictly
exceeds 0.01 (so a chunk whose RMS is exactly 0.01 is discarded); the
resampling to 16 kHz happens after the gate, so the gated signal is the
16 kHz signal only when the device already captures at 16 kHz. -/
theorem C6_vad_gate_device_rate (mic_samples : List ℚ) (rate ch : ℕ)
    (hr : 0 < rate) (hc : 0 < ch) :
    ((micDispatch mic_samples rate ch).isSome = true ↔
      mic_samples ≠ [] ∧ (1 : ℝ) / 100 < rms (monoMix ch mic_samples)) ∧
    micDispatch [1 / 100] 16000 1 = none := by
  constructor
  · by_cases he : mic_samples.isEmpty = true
    · have hnil : mic_samples = [] := by
        cases mic_samples with
        | nil => rfl
        | cons a l => exact absurd he (by simp)
      subst hnil
      simp [micDispatch]
    · have hne : mic_samples ≠ [] := by
        intro hnil
        subst hnil
        exact he rfl
      have hmono_ne : monoMix ch mic_samples ≠ [] := by
        intro hm
        exact hne ((monoMix_eq_nil_iff ch mic_samples).mp hm)
      simp only [micDispatch]
      rw [if_neg he, if_pos ⟨hr, hc⟩]
      have hiff := has_voice_activity_iff_rms (monoMix ch mic_samples) (1 / 100)
        (by norm_num)
      have hcast : (((1 : ℚ) / 100 : ℚ) : ℝ) = (1 : ℝ) / 100 := by norm_num
      by_cases hg : has_voice_activity (monoMix ch mic_samples) (1 / 100) = true
      · rw [if_pos hg]
        simp only [Option.isSome_some, true_iff]
        obtain ⟨-, hrms⟩ := hiff.mp hg
        rw [hcast] at hrms
        exact ⟨hne, hrms⟩
      · rw [if_neg hg]
        simp only [Option.isSome_none, Bool.false_eq_true, false_iff]
        rintro ⟨-, hrms⟩
        exact hg (hiff.mpr ⟨hmono_ne, by rw [hcast]; exact hrms⟩)
  · have hm1 : monoMix 1 [(1 : ℚ) / 100] = [1 / 100] := rfl
    have hgate2 : has_voice_activity [(1 : ℚ) / 100] (1 / 100) = false := by
      simp only [has_voice_activity, sum_sq, List.map_cons, List.map_nil, List.sum_cons,
        List.sum_nil, List.isEmpty_cons, Bool.false_eq_true, if_false, List.length_cons,
        List.length_nil, decide_eq_false_iff_not]
      norm_num
    simp only [micDispatch]
    rw [if_neg (show ¬([(1 : ℚ) / 100].isEmpty = true) by decide)]
    rw [if_pos (show 0 < 16000 ∧ 0 < 1 by constructor <;> norm_num)]
    rw [hm1]
    rw [if_neg (show ¬(has_voice_activity [(1 : ℚ) / 100] (1 / 100) = true) by
      rw [hgate2]
      exact Bool.false_ne_true)]

/-- Witness for C6: the amended gate characterization at a concrete
dispatched chunk. -/
theorem C6_vad_gate_witness :
    ((micDispatch [1 / 2] 16000 1).isSome = true ↔
      [(1 : ℚ) / 2] ≠ [] ∧ (1 : ℝ) / 100 < rms (monoMix 1 [1 / 2])) ∧
    micDispatch [1 / 100] 16000 1 = none :=
  C6_vad_gate_device_rate [1 / 2] 16000 1 (by norm_num) (by norm_num)

/-! ### C7 — the persisted-transcript invariant -/

/-- A text the skip filter lets through is non-empty, not whitespace-only,
and free of every skip token. -/
theorem textOk_of_not_skip (t : String) (h : should_skip_segment t = false) :
    t ≠ "" ∧ ¬ (trimChars t.toList).isEmpty = true ∧
      ∀ tok ∈ skipTokens, containsSub (lowerChars t).asString tok = false := by
  simp only [should_skip_segment, Bool.or_eq_false_iff] at h
  obtain ⟨⟨⟨⟨⟨⟨⟨h1, h2⟩, h3⟩, h4⟩, h5⟩, h6⟩, h7⟩, h8⟩ := h
  refine ⟨?_, by simpa using h8, ?_⟩
  · intro he
    subst he
    exact absurd h8 (by decide)
  · intro tok htok
    simp only [skipTokens, List.mem_cons, List.not_mem_nil, or_false] at htok
    rcases htok with rfl | rfl | rfl | rfl | rfl | rfl | rfl
    exacts [h1, h2, h3, h4, h5, h6, h7]

/-- A member of the tick's surviving system segments is a raw system segment
that passed the skip filter. -/
theorem mem_sysValidOf {sys : Option TranscriptionResult} {s : TranscriptionSegment}
    (hs : s ∈ sysValidOf sys) :
    ∃ t, sys = some t ∧ s ∈ t.segments ∧ should_skip_segment s.text = false := by
  cases sys with
  | none => simp [sysValidOf] at hs
  | some t =>
    refine ⟨t, rfl, ?_⟩
    by_cases hie : t.segments.isEmpty = true
    · rw [show sysValidOf (some t) = if t.segments.isEmpty = true then []
          else t.segments.filter (fun s => ¬ should_skip_segment s.text) from rfl,
        if_pos hie] at hs
      exact absurd hs (List.not_mem_nil s)
    · rw [show sysValidOf (some t) = if t.segments.isEmpty = true then []
          else t.segments.filter (fun s => ¬ should_skip_segment s.text) from rfl,
        if_neg hie, List.mem_filter] at hs
      refine ⟨hs.1, ?_⟩
      have h2 := hs.2
      simpa using h2

/-- A member of the tick's surviving mic segments is a raw mic segment that
passed the skip filter. -/
theorem mem_micValidOf {st : LiveTranscriptionState}
    {mic sys : Option TranscriptionResult} {s : TranscriptionSegment}
    (hs : s ∈ micValidOf st mic sys) :
    ∃ t, mic = some t ∧ s ∈ t.segments ∧ should_skip_segment s.text = false := by
  cases mic with
  | none => simp [micValidOf] at hs
  | some t =>
    refine ⟨t, rfl, ?_⟩
    by_cases hie : t.segments.isEmpty = true
    · rw [show micValidOf st (some t) sys = if t.segments.isEmpty = true then []
          else (t.segments.filter (fun s => ¬ should_skip_segment s.text)).filter
            (fun s => ¬ is_echo_of_system s.text s.start_time s.end_time
              (historyOf st sys)) from rfl,
        if_pos hie] at hs
      exact absurd hs (List.not_mem_nil s)
    · rw [show micValidOf st (some t) sys = if t.segments.isEmpty = true then []
          else (t.segments.filter (fun s => ¬ should_skip_segment s.text)).filter
            (fun s => ¬ is_echo_of_system s.text s.start_time s.end_time
              (historyOf st sys)) from rfl,
        if_neg hie, List.mem_filter, List.mem_filter] at hs
      refine ⟨hs.1.1, ?_⟩
      have h2 := hs.1.2
      simpa using h2

/-- Claim C7: under the STT engine's contract that raw segments carry
ordered timestamps, every row persisted by the live batch commit and by the
offline transcription save has `start_time ≤ end_time` and text that is
non-empty, not whitespace-only, and free of every skip token as a
case-insensitive substring. -/
theorem C7_persisted_rows (note : String) (st : LiveTranscriptionState)
    (mic sys : Option TranscriptionResult) (speaker : Option String)
    (offline_result : TranscriptionResult)
    (hmic : ∀ t, mic = some t → ∀ s ∈ t.segments, s.start_time ≤ s.end_time)
    (hsys : ∀ t, sys = some t → ∀ s ∈ t.segments, s.start_time ≤ s.end_time)
    (hoff : ∀ s ∈ offline_result.segments, s.start_time ≤ s.end_time) :
    (∀ r ∈ (processTick note st mic sys).2.1, transcriptRowOk r) ∧
    (∀ r ∈ offline_saved_rows note speaker offline_result, transcriptRowOk r) := by
  constructor
  · intro r hr
    have he : (processTick note st mic sys).2.1 =
        (micValidOf st mic sys).map (fun s =>
          TranscriptRow.mk note s.start_time s.end_time s.text (some "You")) ++
        (sysValidOf sys).map (fun s =>
          TranscriptRow.mk note s.start_time s.end_time s.text (some "Others")) := rfl
    rw [he] at hr
    rcases List.mem_append.mp hr with h | h
    · rcases List.mem_map.mp h with ⟨s, hsmem, rfl⟩
      obtain ⟨t, ht, hseg, hskip⟩ := mem_micValidOf hsmem
      obtain ⟨h1, h2, h3⟩ := textOk_of_not_skip s.text hskip
      exact ⟨hmic t ht s hseg, h1, h2, h3⟩
    · rcases List.mem_map.mp h with ⟨s, hsmem, rfl⟩
      obtain ⟨t, ht, hseg, hskip⟩ := mem_sysValidOf hsmem
      obtain ⟨h1, h2, h3⟩ := textOk_of_not_skip s.text hskip
      exact ⟨hsys t ht s hseg, h1, h2, h3⟩
  · intro r hr
    rcases List.mem_map.mp hr with ⟨s, hsmem, rfl⟩
    rw [List.mem_filter] at hsmem
    obtain ⟨hseg, hskipb⟩ := hsmem
    have hskip : should_skip_segment s.text = false := by simpa using hskipb
    obtain ⟨h1, h2, h3⟩ := textOk_of_not_skip s.text hskip
    exact ⟨hoff s hseg, h1, h2, h3⟩

/-- Witness for C7: the invariant holds on a concrete tick and a concrete
offline save. -/
theorem C7_persisted_rows_witness :
    (∀ r ∈ (processTick "n1" initLive (some micHello) none).2.1, transcriptRowOk r) ∧
    (∀ r ∈ offline_saved_rows "n1" (some "seed") micHello, transcriptRowOk r) :=
  C7_persisted_rows "n1" initLive (some micHello) none (some "seed") micHello
    (by
      intro t ht s hs
      rw [Option.some.injEq] at ht
      subst ht
      simp only [micHello, List.mem_singleton] at hs
      subst hs
      norm_num)
    (by
      intro t ht
      exact absurd ht (by simp))
    (by
      intro s hs
      simp only [micHello, List.mem_singleton] at hs
      subst hs
      norm_num)

/-! ### C8 — the mixer -/

/-- Channel normalization to the same count is the identity (the mixer's
first stream). -/
theorem normalize_channels_self (s : List ℚ) (c : ℕ) :
    normalize_channels_f32 s c c = s := by
  simp [normalize_channels_f32]

/-- Claim C8: the mixed output has one sample per index below the maximum of
the two post-processing lengths — the first stream as decoded, the second
channel-normalized to the first's count and resampled to the first's rate —
and sample `i` is the clamped 16-bit conversion of the average `(a+b)/2`
with the shorter stream read as 0 past its end; the output header carries
the first input's channel count and sample rate at 16 bits. -/
theorem C8_mix_pointwise (samples_a samples_b : List ℚ)
    (rate_a rate_b ch_a ch_b : ℕ) :
    (mix_int_samples samples_a samples_b rate_a rate_b ch_a ch_b).length =
      max samples_a.length
        (mixResample (normalize_channels_f32 samples_b ch_b ch_a) rate_b rate_a).length ∧
    (∀ i < max samples_a.length
        (mixResample (normalize_channels_f32 samples_b ch_b ch_a) rate_b rate_a).length,
      (mix_int_samples samples_a samples_b rate_a rate_b ch_a ch_b).get? i =
        some (truncToInt (clampQ (((samples_a.get? i).getD 0 +
          ((mixResample (normalize_channels_f32 samples_b ch_b ch_a) rate_b
            rate_a).get? i).getD 0) / 2 * 32767) (-32768) 32767))) ∧
    (∀ spec_a : WavSpecM, mix_output_spec spec_a =
      WavSpecM.mk spec_a.channels spec_a.sample_rate 16) := by
  have hsa : normalize_channels_f32 samples_a ch_a ch_a = samples_a :=
    normalize_channels_self _ _
  refine ⟨?_, ?_, fun _ => rfl⟩
  · simp only [mix_int_samples, hsa, List.length_map, List.length_range]
  · intro i hi
    simp only [mix_int_samples, hsa]
    rw [List.get?_eq_getElem?, List.getElem?_map, List.getElem?_range hi]
    rfl

/-- Counterexample to claim C2: starting, pausing (duration 5000 ms written)
and then calling `start_dual_recording_with_segments` again on the same note
produces a second segment with index 1 and `start_offset_ms = 0`, violating
`start_offset_ms[1] = start_offset_ms[0] + duration_ms[0] = 5000`. -/
theorem C2_cex_restart_offsets :
    ¬ offsetConsistent (runCmds (initState ["n1"])
      [RecCmd.start "n1", RecCmd.pause 5000, RecCmd.start "n1"]).db.segments := by
  decide

/-- Every row of a note is bounded by the note's maximum segment index. -/
theorem le_maxIndexOf {note : String} {segs : List SegRow} {r : SegRow}
    (hr : r ∈ segs) (hn : r.note_id = note) :
    ∃ m, maxIndexOf note segs = some m ∧ r.segment_index ≤ m := by
  induction segs with
  | nil => exact absurd hr (List.not_mem_nil r)
  | cons a l ih =>
    rcases List.mem_cons.mp hr with rfl | hmem
    · cases hm : maxIndexOf note l with
      | none => exact ⟨r.segment_index, by simp [maxIndexOf, hn, hm], le_refl _⟩
      | some v => exact ⟨max r.segment_index v, by simp [maxIndexOf, hn, hm],
          le_max_left _ _⟩
    · obtain ⟨m, hm, hle⟩ := ih hmem
      by_cases ha : a.note_id = note
      · exact ⟨max a.segment_index m, by simp [maxIndexOf, ha, hm],
          le_trans hle (le_max_right _ _)⟩
      · exact ⟨m, by simp [maxIndexOf, ha, hm], hle⟩

/-- Every existing row of a note has an index strictly below the note's next
index. -/
theorem lt_next_index {db : Db} {note : String} {r : SegRow}
    (hr : r ∈ db.segments) (hn : r.note_id = note) :
    r.segment_index < get_next_segment_index db note := by
  obtain ⟨m, hm, hle⟩ := le_maxIndexOf hr hn
  unfold get_next_segment_index
  rw [hm]
  show r.segment_index < m + 1
  omega

/-- Appending a row that is not in the prior set leaves `priorSum`
unchanged. -/
theorem priorSum_append (segs : List SegRow) (new : SegRow) (note : String)
    (idx : ℤ) (h : ¬ (new.note_id = note ∧ new.segment_index < idx)) :
    priorSum (segs ++ [new]) note idx = priorSum segs note idx := by
  unfold priorSum
  rw [List.filter_append]
  have hf : List.filter (fun q =>
      decide (q.note_id = note ∧ q.segment_index < idx)) [new] = [] := by
    rw [List.filter_eq_nil_iff]
    intro a ha
    simp only [List.mem_singleton] at ha
    subst ha
    simpa using h
  rw [hf, List.append_nil]

/-- When every row of the note is below `idx`, the note's total stored
duration equals the prior sum at `idx`. -/
theorem total_eq_priorSum {db : Db} {note : String} {idx : ℤ}
    (h : ∀ q ∈ db.segments, q.note_id = note → q.segment_index < idx) :
    get_total_segment_duration db note = priorSum db.segments note idx := by
  unfold get_total_segment_duration priorSum
  have hf : db.segments.filter (fun r => r.note_id = note) =
      db.segments.filter (fun q => decide (q.note_id = note ∧ q.segment_index < idx)) := by
    apply List.filter_congr
    intro a ha
    by_cases hn : a.note_id = note
    · simp [hn, h a ha hn]
    · simp [hn]
  rw [hf]

/-- If the note has no rows at all, the prior sum is zero. -/
theorem priorSum_eq_zero {segs : List SegRow} {note : String} (idx : ℤ)
    (h : ∀ q ∈ segs, q.note_id ≠ note) :
    priorSum segs note idx = 0 := by
  unfold priorSum
  have hf : segs.filter (fun q => decide (q.note_id = note ∧ q.segment_index < idx)) = [] := by
    rw [List.filter_eq_nil_iff]
    intro a ha
    simp [h a ha]
  rw [hf]
  rfl

/-- `priorSum` over a cons: the head contributes its stored duration when it
is in the prior set. -/
theorem priorSum_cons (x : SegRow) (xs : List SegRow) (note : String) (idx : ℤ) :
    priorSum (x :: xs) note idx =
      (if x.note_id = note ∧ x.segment_index < idx then x.duration_ms.getD 0 else 0) +
        priorSum xs note idx := by
  unfold priorSum
  simp only [List.filter_cons]
  by_cases hp : (x.note_id = note ∧ x.segment_index < idx)
  · simp [hp]
  · simp [hp]

/-- Updating the duration of rows that are outside the prior set leaves
`priorSum` unchanged. -/
theorem priorSum_update (segment_id d : ℤ) (note : String) (idx : ℤ) :
    ∀ segs : List SegRow,
      (∀ q ∈ segs, q.id = segment_id →
        ¬ (q.note_id = note ∧ q.segment_index < idx)) →
      priorSum (segs.map (fun r =>
        if r.id = segment_id then { r with duration_ms := some d } else r)) note idx =
        priorSum segs note idx := by
  intro segs
  induction segs with
  | nil => intro _; rfl
  | cons a l ih =>
    intro h
    have hl : ∀ q ∈ l, q.id = segment_id →
        ¬ (q.note_id = note ∧ q.segment_index < idx) :=
      fun q hq => h q (List.mem_cons_of_mem a hq)
    simp only [List.map_cons]
    by_cases hid : a.id = segment_id
    · rw [if_pos hid, priorSum_cons, priorSum_cons]
      have h1 : ({ a with duration_ms := some d } : SegRow).note_id = a.note_id := rfl
      have h2 : ({ a with duration_ms := some d } : SegRow).segment_index =
        a.segment_index := rfl
      rw [h1, h2]
      have hno : ¬ (a.note_id = note ∧ a.segment_index < idx) :=
        h a (List.mem_cons_self a l) hid
      rw [if_neg hno, if_neg hno, ih hl]
    · rw [if_neg hid, priorSum_cons, priorSum_cons, ih hl]

/-- Appending a row whose index dominates its note and whose offset is the
note's prior sum preserves the offset invariant. -/
theorem offsetConsistent_insert (segs : List SegRow) (new : SegRow)
    (hoff : offsetConsistent segs)
    (hgt : ∀ q ∈ segs, q.note_id = new.note_id → q.segment_index < new.segment_index)
    (hnewoff : new.start_offset_ms = priorSum segs new.note_id new.segment_index) :
    offsetConsistent (segs ++ [new]) := by
  intro r hr
  rcases List.mem_append.mp hr with h | h
  · have hno : ¬ (new.note_id = r.note_id ∧ new.segment_index < r.segment_index) := by
      rintro ⟨hn, hlt⟩
      exact absurd hlt (not_lt.mpr (le_of_lt (hgt r h hn.symm)))
    rw [priorSum_append segs new _ _ hno]
    exact hoff r h
  · simp only [List.mem_singleton] at h
    subst h
    have hno : ¬ (r.note_id = r.note_id ∧ r.segment_index < r.segment_index) := by
      simp
    rw [priorSum_append segs r _ _ hno]
    exact hnewoff

/-- The fields other than the duration survive a duration update. -/
theorem upd_row_fields (segment_id d : ℤ) (r : SegRow) :
    ((if r.id = segment_id then { r with duration_ms := some d } else r) : SegRow).id
        = r.id ∧
      ((if r.id = segment_id then { r with duration_ms := some d } else r) :
        SegRow).note_id = r.note_id ∧
      ((if r.id = segment_id then { r with duration_ms := some d } else r) :
        SegRow).segment_index = r.segment_index ∧
      ((if r.id = segment_id then { r with duration_ms := some d } else r) :
        SegRow).start_offset_ms = r.start_offset_ms := by
  by_cases h : r.id = segment_id <;> simp [h]

/-- Updating the duration of a row that carries the maximal index of its
note preserves the offset invariant. -/
theorem offsetConsistent_update (segs : List SegRow) (segment_id d : ℤ)
    (hoff : offsetConsistent segs)
    (hmax : ∀ u ∈ segs, u.id = segment_id →
      ∀ q ∈ segs, q.note_id = u.note_id → q.segment_index ≤ u.segment_index) :
    offsetConsistent (segs.map (fun r =>
      if r.id = segment_id then { r with duration_ms := some d } else r)) := by
  intro r hr
  rcases List.mem_map.mp hr with ⟨r0, hr0, rfl⟩
  obtain ⟨hfid, hfnote, hfidx, hfoff⟩ := upd_row_fields segment_id d r0
  rw [hfnote, hfidx, hfoff]
  have hcond : ∀ q ∈ segs, q.id = segment_id →
      ¬ (q.note_id = r0.note_id ∧ q.segment_index < r0.segment_index) := by
    rintro q hq hid ⟨hn, hlt⟩
    have := hmax q hq hid r0 hr0 hn.symm
    omega
  rw [priorSum_update segment_id d _ _ segs hcond]
  exact hoff r0 hr0

/-- The machine invariant carried through the command induction: the offset
invariant, positivity and freshness of rowids, and that the stored active
segment id, when it refers to a row, refers to a per-note maximal one. -/
structure MachineInv (st : AppState) : Prop where
  offsets : offsetConsistent st.db.segments
  ids_pos : ∀ r ∈ st.db.segments, 0 < r.id
  ids_lt : ∀ r ∈ st.db.segments, r.id < st.db.next_id
  next_pos : 0 < st.db.next_id
  db_id_max : ∀ r ∈ st.db.segments, r.id = st.recording.current_segment_db_id →
    ∀ q ∈ st.db.segments, q.note_id = r.note_id → q.segment_index ≤ r.segment_index

/-- The invariant after an `add_audio_segment` insert whose index dominates
the note and whose offset is the note's prior sum, with the recorder's
stored segment id pointing at the new row. -/
theorem inv_after_insert (db : Db) (rec' : RecorderState) (note : String)
    (idx off : ℤ) (mp : String) (sp : Option String)
    (hoffs : offsetConsistent db.segments)
    (hids_pos : ∀ r ∈ db.segments, 0 < r.id)
    (hids_lt : ∀ r ∈ db.segments, r.id < db.next_id)
    (hnext : 0 < db.next_id)
    (hidx : ∀ q ∈ db.segments, q.note_id = note → q.segment_index < idx)
    (hoff : off = priorSum db.segments note idx)
    (hrecid : rec'.current_segment_db_id = db.next_id) :
    MachineInv (AppState.mk rec'
      (Db.mk db.notes
        (db.segments ++ [SegRow.mk db.next_id note idx mp sp off none])
        (db.next_id + 1))) := by
  refine ⟨?_, ?_, ?_, by dsimp only; omega, ?_⟩
  · exact offsetConsistent_insert db.segments _ hoffs hidx hoff
  · intro r hr
    rcases List.mem_append.mp hr with h | h
    · exact hids_pos r h
    · simp only [List.mem_singleton] at h
      subst h
      exact hnext
  · intro r hr
    dsimp only
    rcases List.mem_append.mp hr with h | h
    · have := hids_lt r h
      omega
    · simp only [List.mem_singleton] at h
      subst h
      dsimp only
      omega
  · intro r hr hid q hq hnq
    dsimp only at hid
    rw [hrecid] at hid
    rcases List.mem_append.mp hr with h | h
    · exact absurd hid (by have := hids_lt r h; omega)
    · simp only [List.mem_singleton] at h
      subst h
      rcases List.mem_append.mp hq with h2 | h2
      · exact le_of_lt (hidx q h2 hnq)
      · simp only [List.mem_singleton] at h2
        subst h2
        exact le_refl _

/-- The invariant after a duration update of the stored active segment. -/
theorem inv_after_update (db : Db) (rec0 rec' : RecorderState) (d : ℤ)
    (hInv : MachineInv (AppState.mk rec0 db))
    (hrecid : rec'.current_segment_db_id = rec0.current_segment_db_id) :
    MachineInv (AppState.mk rec'
      (update_segment_duration db rec0.current_segment_db_id d)) := by
  have hmax := hInv.db_id_max
  refine ⟨?_, ?_, ?_, hInv.next_pos, ?_⟩
  · exact offsetConsistent_update db.segments _ d hInv.offsets hmax
  · intro r hr
    rcases List.mem_map.mp hr with ⟨r0, hr0, rfl⟩
    obtain ⟨hfid, -, -, -⟩ := upd_row_fields rec0.current_segment_db_id d r0
    rw [hfid]
    exact hInv.ids_pos r0 hr0
  · intro r hr
    rcases List.mem_map.mp hr with ⟨r0, hr0, rfl⟩
    obtain ⟨hfid, -, -, -⟩ := upd_row_fields rec0.current_segment_db_id d r0
    rw [hfid]
    exact hInv.ids_lt r0 hr0
  · intro r hr hid q hq hnq
    rcases List.mem_map.mp hr with ⟨r0, hr0, rfl⟩
    rcases List.mem_map.mp hq with ⟨q0, hq0, rfl⟩
    obtain ⟨hfid, hfnote, hfidx, -⟩ := upd_row_fields rec0.current_segment_db_id d r0
    obtain ⟨-, hgnote, hgidx, -⟩ := upd_row_fields rec0.current_segment_db_id d q0
    rw [hfid] at hid
    rw [hfnote] at hnq
    rw [hgnote] at hnq
    rw [hfidx, hgidx]
    exact hmax r0 hr0 (by rw [hrecid] at hid; exact hid) q0 hq0 hnq

/-- The invariant when the database is untouched and the recorder's stored
segment id is either preserved or cleared to 0. -/
theorem inv_same_db (db : Db) (rec0 rec' : RecorderState)
    (hInv : MachineInv (AppState.mk rec0 db))
    (hrecid : rec'.current_segment_db_id = rec0.current_segment_db_id ∨
      rec'.current_segment_db_id = 0) :
    MachineInv (AppState.mk rec' db) := by
  refine ⟨hInv.offsets, hInv.ids_pos, hInv.ids_lt, hInv.next_pos, ?_⟩
  intro r hr hid q hq hnq
  rcases hrecid with h | h
  · rw [h] at hid
    exact hInv.db_id_max r hr hid q hq hnq
  · rw [h] at hid
    exact absurd hid (by have := hInv.ids_pos r hr; omega)

/-- `start_recording` leaves the stored segment id unchanged. -/
theorem start_recording_db_id (r : RecorderState) (p : String)
    (r' : RecorderState) (h : start_recording r p = .ok r') :
    r'.current_segment_db_id = r.current_segment_db_id := by
  unfold start_recording at h
  by_cases hph : r.phase = RecordingPhase.Recording
  · rw [if_pos hph] at h
    exact absurd h (by simp)
  · rw [if_neg hph] at h
    injection h with h1
    rw [← h1]

/-- `resume_recording` leaves the stored segment id unchanged. -/
theorem resume_recording_db_id (r : RecorderState) (p : String)
    (r' : RecorderState) (h : resume_recording r p = .ok r') :
    r'.current_segment_db_id = r.current_segment_db_id := by
  unfold resume_recording at h
  by_cases hph : r.phase ≠ RecordingPhase.Paused
  · rw [if_pos hph] at h
    exact absurd h (by simp)
  · rw [if_neg hph] at h
    exact start_recording_db_id
      { r with current_segment_index := r.current_segment_index + 1 } p r' h

/-- `start_dual_recording_with_segments` on a note with no segments
preserves the machine invariant. -/
theorem inv_step_start (st : AppState) (n : String) (hInv : MachineInv st)
    (hfresh : (st.db.segments.filter (fun r => r.note_id = n)).isEmpty = true) :
    MachineInv (start_dual_recording_with_segments st n).1 := by
  have hnone : ∀ q ∈ st.db.segments, q.note_id ≠ n := by
    intro q hq hqe
    have hfe : st.db.segments.filter (fun r => r.note_id = n) = [] := by
      cases hc : st.db.segments.filter (fun r => r.note_id = n) with
      | nil => rfl
      | cons a l =>
        rw [hc] at hfresh
        exact absurd hfresh (by simp)
    have hmem : q ∈ st.db.segments.filter (fun r => r.note_id = n) :=
      List.mem_filter.mpr ⟨hq, by simpa using hqe⟩
    rw [hfe] at hmem
    exact absurd hmem (List.not_mem_nil q)
  have hidx : ∀ q ∈ st.db.segments, q.note_id = n →
      q.segment_index < get_next_segment_index st.db n :=
    fun q hq hqn => absurd hqn (hnone q hq)
  simp only [start_dual_recording_with_segments]
  cases hadd : add_audio_segment st.db n (get_next_segment_index st.db n)
      (micSegPath n (get_next_segment_index st.db n))
      (some (sysSegPath n (get_next_segment_index st.db n))) 0 with
  | error e =>
    exact inv_same_db st.db st.recording _ hInv (Or.inr rfl)
  | ok p =>
    obtain ⟨db1, segment_id⟩ := p
    unfold add_audio_segment at hadd
    by_cases hct : st.db.notes.contains n = true
    · rw [if_pos hct] at hadd
      injection hadd with h1
      injection h1 with h2 h3
      subst h2
      subst h3
      have hoff : (0 : ℤ) = priorSum st.db.segments n (get_next_segment_index st.db n) :=
        (priorSum_eq_zero _ hnone).symm
      dsimp only
      cases hsr : start_recording
          { { reset_for_new_session st.recording with current_note_id := some n } with
            current_segment_db_id := st.db.next_id }
          (micSegPath n (get_next_segment_index st.db n)) with
      | error e =>
        exact inv_after_insert st.db _ n (get_next_segment_index st.db n) 0 _ _
          hInv.offsets hInv.ids_pos hInv.ids_lt hInv.next_pos hidx hoff rfl
      | ok r3 =>
        exact inv_after_insert st.db r3 n (get_next_segment_index st.db n) 0 _ _
          hInv.offsets hInv.ids_pos hInv.ids_lt hInv.next_pos hidx hoff
          (start_recording_db_id _ _ _ hsr)
    · rw [if_neg hct] at hadd
      exact absurd hadd (by simp)

/-- `pause_dual_recording` preserves the machine invariant. -/
theorem inv_step_pause (st : AppState) (d : ℤ) (hInv : MachineInv st) :
    MachineInv (pause_dual_recording st d).1 := by
  simp only [pause_dual_recording]
  cases hpr : pause_recording st.recording d with
  | error e => exact hInv
  | ok p =>
    obtain ⟨r1, duration_ms⟩ := p
    unfold pause_recording at hpr
    by_cases hph : st.recording.phase ≠ RecordingPhase.Recording
    · rw [if_pos hph] at hpr
      exact absurd hpr (by simp)
    · rw [if_neg hph] at hpr
      injection hpr with h1
      injection h1 with h2 h3
      have hdb : r1.current_segment_db_id = st.recording.current_segment_db_id := by
        rw [← h2]
      dsimp only
      by_cases hpos : 0 < r1.current_segment_db_id
      · rw [if_pos hpos, hdb]
        exact inv_after_update st.db st.recording r1 duration_ms hInv hdb
      · rw [if_neg hpos]
        exact inv_same_db st.db st.recording r1 hInv (Or.inl hdb)

/-- `stop_dual_recording` preserves the machine invariant. -/
theorem inv_step_stop (st : AppState) (n : String) (hInv : MachineInv st) :
    MachineInv (stop_dual_recording st n).1 := by
  simp only [stop_dual_recording, stop_recording]
  cases hp : st.recording.output_path with
  | none => exact inv_same_db st.db st.recording _ hInv (Or.inr rfl)
  | some mp => exact inv_same_db st.db st.recording _ hInv (Or.inr rfl)

/-- `resume_dual_recording` preserves the machine invariant. -/
theorem inv_step_resume (st : AppState) (n : String) (hInv : MachineInv st) :
    MachineInv (resume_dual_recording st n).1 := by
  simp only [resume_dual_recording]
  by_cases hph : st.recording.phase ≠ RecordingPhase.Paused
  · rw [if_pos hph]
    exact hInv
  · rw [if_neg hph]
    have hidx : ∀ q ∈ st.db.segments, q.note_id = n →
        q.segment_index < get_next_segment_index st.db n :=
      fun q hq hqn => lt_next_index hq hqn
    have hoff : get_total_segment_duration st.db n =
        priorSum st.db.segments n (get_next_segment_index st.db n) :=
      total_eq_priorSum hidx
    cases hadd : add_audio_segment st.db n (get_next_segment_index st.db n)
        (micSegPath n (get_next_segment_index st.db n))
        (some (sysSegPath n (get_next_segment_index st.db n)))
        (get_total_segment_duration st.db n) with
    | error e =>
      exact inv_same_db st.db st.recording _ hInv (Or.inl rfl)
    | ok p =>
      obtain ⟨db1, segment_id⟩ := p
      unfold add_audio_segment at hadd
      by_cases hct : st.db.notes.contains n = true
      · rw [if_pos hct] at hadd
        injection hadd with h1
        injection h1 with h2 h3
        subst h2
        subst h3
        dsimp only
        cases hrr : resume_recording
            { { st.recording with
                current_segment_index := (get_next_segment_index st.db n).toNat,
                segment_start_offset_ms := get_total_segment_duration st.db n } with
              current_segment_db_id := st.db.next_id }
            (micSegPath n (get_next_segment_index st.db n)) with
        | error e =>
          exact inv_after_insert st.db _ n (get_next_segment_index st.db n) _ _ _
            hInv.offsets hInv.ids_pos hInv.ids_lt hInv.next_pos hidx hoff rfl
        | ok r3 =>
          exact inv_after_insert st.db r3 n (get_next_segment_index st.db n) _ _ _
            hInv.offsets hInv.ids_pos hInv.ids_lt hInv.next_pos hidx hoff
            (resume_recording_db_id _ _ _ hrr)
      · rw [if_neg hct] at hadd
        exact absurd hadd (by simp)

/-- `continue_note_recording` preserves the machine invariant. -/
theorem inv_step_continue (st : AppState) (n : String) (hInv : MachineInv st) :
    MachineInv (continue_note_recording st n).1 := by
  simp only [continue_note_recording]
  by_cases hex : ¬ st.db.notes.contains n = true
  · rw [if_pos hex]
    exact hInv
  · rw [if_neg hex]
    have hidx : ∀ q ∈ st.db.segments, q.note_id = n →
        q.segment_index < get_next_segment_index st.db n :=
      fun q hq hqn => lt_next_index hq hqn
    have hoff : get_total_segment_duration st.db n =
        priorSum st.db.segments n (get_next_segment_index st.db n) :=
      total_eq_priorSum hidx
    cases hadd : add_audio_segment st.db n (get_next_segment_index st.db n)
        (micSegPath n (get_next_segment_index st.db n))
        (some (sysSegPath n (get_next_segment_index st.db n)))
        (get_total_segment_duration st.db n) with
    | error e =>
      exact inv_same_db st.db st.recording _ hInv (Or.inl rfl)
    | ok p =>
      obtain ⟨db1, segment_id⟩ := p
      unfold add_audio_segment at hadd
      by_cases hct : st.db.notes.contains n = true
      · rw [if_pos hct] at hadd
        injection hadd with h1
        injection h1 with h2 h3
        subst h2
        subst h3
        dsimp only
        cases hsr : start_recording
            { { { st.recording with current_note_id := some n } with
                current_segment_index := (get_next_segment_index st.db n).toNat,
                segment_start_offset_ms := get_total_segment_duration st.db n } with
              current_segment_db_id := st.db.next_id }
            (micSegPath n (get_next_segment_index st.db n)) with
        | error e =>
          exact inv_after_insert st.db _ n (get_next_segment_index st.db n) _ _ _
            hInv.offsets hInv.ids_pos hInv.ids_lt hInv.next_pos hidx hoff rfl
        | ok r4 =>
          exact inv_after_insert st.db r4 n (get_next_segment_index st.db n) _ _ _
            hInv.offsets hInv.ids_pos hInv.ids_lt hInv.next_pos hidx hoff
            (start_recording_db_id _ _ _ hsr)
      · rw [if_neg hct] at hadd
        exact absurd hadd (by simp)

/-- The invariant holds at the process start state. -/
theorem inv_init (notes : List String) : MachineInv (initState notes) := by
  refine ⟨?_, ?_, ?_, ?_, ?_⟩
  · intro r hr
    exact absurd hr (List.not_mem_nil r)
  · intro r hr
    exact absurd hr (List.not_mem_nil r)
  · intro r hr
    exact absurd hr (List.not_mem_nil r)
  · show (0 : ℤ) < 1
    norm_num
  · intro r hr
    exact absurd hr (List.not_mem_nil r)

/-- The invariant is preserved along every trace whose starts are fresh. -/
theorem machineInv_runCmds (cs : List RecCmd) : ∀ st : AppState,
    MachineInv st → freshStartsB st cs = true → MachineInv (runCmds st cs) := by
  induction cs with
  | nil =>
    intro st hInv _
    exact hInv
  | cons c cs ih =>
    intro st hInv hfresh
    simp only [freshStartsB, Bool.and_eq_true] at hfresh
    obtain ⟨hg, hrest⟩ := hfresh
    have hstep : MachineInv (stepCmd st c) := by
      cases c with
      | start n =>
        exact inv_step_start st n hInv (by simpa using hg)
      | pause d => exact inv_step_pause st d hInv
      | resume n => exact inv_step_resume st n hInv
      | stop n => exact inv_step_stop st n hInv
      | continueNote n => exact inv_step_continue st n hInv
    exact ih (stepCmd st c) hstep hrest

/-- Claim C2 (amended): along every command sequence in which
`start_dual_recording_with_segments` is only invoked on notes without
persisted segments, every persisted audio segment's `start_offset_ms`
equals the sum of the stored durations (NULL read as 0) of the same note's
segments with a smaller index. -/
theorem C2_offset_invariant (notes : List String) (cs : List RecCmd)
    (hfresh : freshStartsB (initState notes) cs = true) :
    offsetConsistent (runCmds (initState notes) cs).db.segments :=
  (machineInv_runCmds cs (initState notes) (inv_init notes) hfresh).offsets

/-- Witness for C2: the amended invariant on a concrete six-command trace
exercising start, pause, resume, stop and continue. -/
theorem C2_offset_invariant_witness :
    offsetConsistent (runCmds (initState ["n1"])
      [RecCmd.start "n1", RecCmd.pause 5000, RecCmd.resume "n1",
        RecCmd.pause 700, RecCmd.stop "n1",
        RecCmd.continueNote "n1"]).db.segments :=
  C2_offset_invariant ["n1"]
    [RecCmd.start "n1", RecCmd.pause 5000, RecCmd.resume "n1",
      RecCmd.pause 700, RecCmd.stop "n1", RecCmd.continueNote "n1"]
    (by decide)

end NetNote
